/-
Verification of the grid hyperparameter search component described by the
repository's specification.  The repository's own files are tutorial
notebooks: the caller of `GridHyperparamOpt.hyperparam_search` and the
printed result table it produced live in `src/unnamed/part_000`, while the
implementation of the search itself is not part of the source tree.  The
definitions below therefore model the component from the specification
(sections 3, 4, 7), keeping the concrete key format that the notebook's
printed result table exhibits (keys such as
`_dropouts_0.200000_layer_sizes[500]_learning_rate_0.001000_n_features_1024_n_tasks_1`).
-/
import Mathlib

namespace GridSearch

/-- Modelled from the spec: a candidate hyperparameter value is heterogeneous —
a number (integer), a float (represented exactly in fixed point as an integer
count of millionths, matching the six-fractional-digit rendering the result
table uses), or a nested sequence such as a layer-size list. -/
inductive HValue where
  | vInt (i : Int)
  | vFloat (micros : Int)
  | vList (xs : List Int)
deriving DecidableEq, Inhabited

/-- A candidate configuration: one concrete assignment of a value to each
hyperparameter name, kept in the hyperparameter space's enumeration order. -/
abbrev Config := List (String × HValue)

/-- A hyperparameter space: an ordered mapping from hyperparameter name to the
ordered sequence of candidate values. -/
abbrev Space := List (String × List HValue)

/-- A scalar validation score. -/
abbrev Score := ℚ

/-- Numeric value of a decimal digit character. -/
def charVal (c : Char) : Nat := c.toNat - 48

/-- The number denoted by a big-endian list of decimal digit characters. -/
def valOf (l : List Char) : Nat := l.foldl (fun a c => a * 10 + charVal c) 0

/-- Decimal digits of `n` (big endian), by fuel-guarded division. -/
def natReprAux : Nat → Nat → List Char
  | 0, _ => []
  | fuel + 1, n => if n = 0 then [] else natReprAux fuel (n / 10) ++ [Nat.digitChar (n % 10)]

/-- Decimal rendering of a natural number, as the result-table keys use. -/
def natRepr (n : Nat) : String := if n = 0 then "0" else String.mk (natReprAux n n)

/-- Decimal rendering of an integer. -/
def intRepr (i : Int) : String :=
  if i < 0 then "-" ++ natRepr i.natAbs else natRepr i.natAbs

/-- The fractional part of a fixed-point rendering: six digits, zero padded. -/
def pad6 (r : Nat) : String :=
  String.mk (List.replicate (6 - (natRepr r).length) '0') ++ natRepr r

/-- Fixed-point rendering with six digits after the decimal point of a float
given as an integer count of millionths: `200000` becomes `0.200000`,
`100` becomes `0.000100`. -/
def floatRepr (m : Int) : String :=
  (if m < 0 then "-" else "") ++ natRepr (m.natAbs / 1000000) ++ "." ++ pad6 (m.natAbs % 1000000)

/-- Comma-separated rendering of the elements of a list. -/
def listReprAux : List Int → String
  | [] => ""
  | [x] => intRepr x
  | x :: y :: xs => intRepr x ++ ", " ++ listReprAux (y :: xs)

/-- Literal rendering of a list value: `[1000, 1000]`. -/
def listRepr (xs : List Int) : String := "[" ++ listReprAux xs ++ "]"

/-- Modelled from the spec: the fragment a single value contributes to the
canonical result-table key.  Integer and float values are preceded by an
underscore; a list value is appended in its literal rendering, exactly as the
keys printed in the notebook show (`_n_tasks_1`, `_dropouts_0.200000`, but
`_layer_sizes[500]` with no underscore before the bracket). -/
def valueStr : HValue → String
  | .vInt i => "_" ++ intRepr i
  | .vFloat m => "_" ++ floatRepr m
  | .vList xs => listRepr xs

/-- The value a configuration assigns to a name (first match). -/
def lookupVal (c : Config) (n : String) : HValue :=
  match c.find? (fun p => p.1 == n) with
  | some p => p.2
  | none => default

/-- Lexicographic comparison of character lists, used to sort names. -/
def charsLe : List Char → List Char → Bool
  | [], _ => true
  | _ :: _, [] => false
  | a :: as, b :: bs => if a = b then charsLe as bs else decide (a < b)

/-- Lexicographic comparison of strings. -/
def strLe (a b : String) : Bool := charsLe a.data b.data

/-- `strLe` as a relation, for the sorting lemmas. -/
def strLeRel (a b : String) : Prop := strLe a b = true

instance : DecidableRel strLeRel :=
  fun a b => inferInstanceAs (Decidable (strLe a b = true))

instance : IsTotal String strLeRel :=
  ⟨fun a b => by
    show charsLe a.data b.data = true ∨ charsLe b.data a.data = true
    generalize a.data = x
    generalize b.data = y
    induction x generalizing y with
    | nil => exact Or.inl rfl
    | cons c cs ih =>
      cases y with
      | nil => exact Or.inr rfl
      | cons d ds =>
        by_cases h : c = d
        · subst h
          simpa only [charsLe, if_pos rfl] using ih ds
        · have h' : ¬ d = c := fun e => h e.symm
          simp only [charsLe, if_neg h, if_neg h', decide_eq_true_eq]
          rcases Nat.lt_or_ge c.toNat d.toNat with h2 | h2
          · exact Or.inl (Char.lt_iff_val_lt_val.mpr (by exact h2))
          · rcases Nat.lt_or_ge d.toNat c.toNat with h3 | h3
            · exact Or.inr (Char.lt_iff_val_lt_val.mpr (by exact h3))
            · exact absurd (Char.ext (UInt32.ext (Nat.le_antisymm h3 h2))) h⟩

instance : IsTrans String strLeRel :=
  ⟨fun a b c => by
    show charsLe a.data b.data = true → charsLe b.data c.data = true →
      charsLe a.data c.data = true
    generalize a.data = x
    generalize b.data = y
    generalize c.data = z
    induction x generalizing y z with
    | nil => intro _ _; rfl
    | cons p ps ih =>
      cases y with
      | nil => intro h1 _; exact absurd h1 (by simp [charsLe])
      | cons q qs =>
        cases z with
        | nil => intro _ h2; exact absurd h2 (by simp [charsLe])
        | cons r rs =>
          intro h1 h2
          by_cases hpq : p = q
          · subst hpq
            by_cases hqr : p = r
            · subst hqr
              simp only [charsLe, if_pos rfl] at h1 h2 ⊢
              exact ih qs rs h1 h2
            · simp only [charsLe, if_neg hqr] at h2 ⊢
              exact h2
          · by_cases hqr : q = r
            · subst hqr
              simp only [charsLe, if_neg hpq] at h1 ⊢
              exact h1
            · simp only [charsLe, if_neg hpq, decide_eq_true_eq] at h1
              simp only [charsLe, if_neg hqr, decide_eq_true_eq] at h2
              have hpr : p < r := Char.lt_trans h1 h2
              have hne : ¬ p = r := fun e => absurd (e ▸ h1) (Char.lt_asymm h2)
              simp only [charsLe, if_neg hne, decide_eq_true_eq]
              exact hpr⟩

instance : IsAntisymm String strLeRel :=
  ⟨fun a b h1 h2 => by
    suffices h : ∀ x y : List Char, charsLe x y = true → charsLe y x = true → x = y by
      have hd := h a.data b.data h1 h2
      cases a
      cases b
      exact congrArg String.mk hd
    intro x
    induction x with
    | nil =>
      intro y h1 h2
      cases y with
      | nil => rfl
      | cons d ds => exact absurd h2 (by simp [charsLe])
    | cons c cs ih =>
      intro y h1 h2
      cases y with
      | nil => exact absurd h1 (by simp [charsLe])
      | cons d ds =>
        by_cases h : c = d
        · subst h
          simp only [charsLe, if_pos rfl] at h1 h2
          rw [ih ds h1 h2]
        · have h' : ¬ d = c := fun e => h e.symm
          simp only [charsLe, if_neg h, decide_eq_true_eq] at h1
          simp only [charsLe, if_neg h', decide_eq_true_eq] at h2
          exact absurd h1 (Char.lt_asymm h2)⟩

/-- The configuration's hyperparameter names in ascending alphabetical order. -/
def sortedNames (c : Config) : List String := (c.map Prod.fst).insertionSort strLeRel

/-- The canonical key assembled over an (already sorted) list of names. -/
def keyOfSorted : List String → Config → String
  | [], _ => ""
  | n :: ns, c => "_" ++ n ++ valueStr (lookupVal c n) ++ keyOfSorted ns c

/-- Modelled from the spec: the canonical string key of a configuration, built
from its (name, value) pairs in ascending name order, formatted consistently
(fixed point for floats, literal rendering for lists). -/
def hpStr (c : Config) : String := keyOfSorted (sortedNames c) c

/-- Modelled from the spec: the Cartesian product of the candidate sequences in
deterministic enumeration order — the first hyperparameter varies slowest, the
last varies fastest. -/
def configs : Space → List Config
  | [] => [[]]
  | (n, vs) :: rest => vs.flatMap (fun v => (configs rest).map (fun c => (n, v) :: c))

/-- Modelled from the spec: a score strictly improves on the running best when
it exceeds it (maximize orientation) or is below it (minimize orientation). -/
def better (maximize : Bool) (s best : Score) : Bool :=
  if maximize then decide (best < s) else decide (s < best)

/-- One step of running-best tracking for an already computed score. -/
def stepBest (maximize : Bool) (score : Config → Score)
    (best : Option (Config × Score)) (c : Config) : Option (Config × Score) :=
  match best with
  | none => some (c, score c)
  | some (bc, bs) => if better maximize (score c) bs then some (c, score c) else some (bc, bs)

/-- Modelled from the spec: the sequential sweep over the enumerated
configurations.  Each configuration is trained and evaluated, its score is
appended to the result table under its canonical key, and the running best is
replaced only on strict improvement.  A training or evaluation failure is
propagated together with the offending configuration and the entries recorded
so far; no sentinel score is recorded for the failed configuration. -/
def sweep {ε : Type} (scoreE : Config → Except ε Score) (maximize : Bool) :
    List Config → Option (Config × Score) → List (String × Score) →
    Except (Config × ε × List (String × Score)) (Option (Config × Score) × List (String × Score))
  | [], best, tbl => Except.ok (best, tbl)
  | c :: cs, best, tbl =>
    match scoreE c with
    | Except.error e => Except.error (c, e, tbl)
    | Except.ok s =>
      sweep scoreE maximize cs
        (match best with
         | none => some (c, s)
         | some (bc, bs) => if better maximize s bs then some (c, s) else some (bc, bs))
        (tbl ++ [(hpStr c, s)])

/-- Modelled from the spec's error taxonomy: a configuration error (an empty
candidate sequence, reported before any training begins) or a training /
evaluation failure carrying the offending configuration and the table entries
recorded before it. -/
inductive SearchError (ε : Type) where
  | configError (name : String)
  | trainFailure (cfg : Config) (err : ε) (recorded : List (String × Score))
deriving DecidableEq

/-- Modelled from the spec: `GridHyperparamOpt.hyperparam_search` (its
implementation is not under `src/`; only its caller is).  Given a model
factory, a hyperparameter space, a fallible train-and-evaluate function and a
metric orientation, it checks for empty candidate sequences, enumerates the
Cartesian product, sweeps it, and returns the best model instance, its
configuration, and the full result table. -/
def hyperparam_search {M ε : Type} (space : Space) (build : Config → M)
    (scoreE : Config → Except ε Score) (maximize : Bool) :
    Except (SearchError ε) (M × Config × List (String × Score)) :=
  match space.find? (fun p => p.2.isEmpty) with
  | some p => Except.error (SearchError.configError p.1)
  | none =>
    match sweep scoreE maximize (configs space) none [] with
    | Except.error (c, e, tbl) => Except.error (SearchError.trainFailure c e tbl)
    | Except.ok (some (bc, _), tbl) => Except.ok (build bc, bc, tbl)
    | Except.ok (none, _) => Except.error (SearchError.configError "")

/-- The value fragment as claim C10 words the key format: the name and its
value joined by underscores for every kind of value, including lists.  This is
the claim's wording, to be compared against `valueStr`, which follows the keys
the notebook actually printed. -/
def claimValueStr : HValue → String
  | .vInt i => "_" ++ intRepr i
  | .vFloat m => "_" ++ floatRepr m
  | .vList xs => "_" ++ listRepr xs

/-- The canonical key as claim C10 words it, assembled over sorted names. -/
def claimKeyAux : List String → Config → String
  | [], _ => ""
  | n :: ns, c => "_" ++ n ++ claimValueStr (lookupVal c n) ++ claimKeyAux ns c

/-- The key format exactly as claim C10 describes it. -/
def claimKey (c : Config) : String := claimKeyAux (sortedNames c) c

/-- The keys of the result table of a finished search (empty on error). -/
def keysOf {M ε : Type} (r : Except (SearchError ε) (M × Config × List (String × Score))) :
    List String :=
  match r with
  | Except.ok t => t.2.2.map Prod.fst
  | Except.error _ => []

/-- The hyperparameter space the notebook passes to `hyperparam_search`
(`n_tasks`, `n_features`, `layer_sizes`, `dropouts`, `learning_rate`, in the
dictionary order of `params_dict`). -/
def notebookSpace : Space :=
  [("n_tasks", [HValue.vInt 1]),
   ("n_features", [HValue.vInt 1024]),
   ("layer_sizes", [HValue.vList [500], HValue.vList [1000], HValue.vList [1000, 1000]]),
   ("dropouts", [HValue.vFloat 200000, HValue.vFloat 500000]),
   ("learning_rate", [HValue.vFloat 1000, HValue.vFloat 100])]

/-- The first configuration of the notebook's space: one hidden layer of width
500, 20% dropout, learning rate 0.001. -/
def notebookConfig : Config :=
  [("n_tasks", HValue.vInt 1), ("n_features", HValue.vInt 1024),
   ("layer_sizes", HValue.vList [500]), ("dropouts", HValue.vFloat 200000),
   ("learning_rate", HValue.vFloat 1000)]

/-- The two-hyperparameter example space of the spec: `{a: [1, 2], b: [10, 20]}`. -/
def exSpace : Space :=
  [("a", [HValue.vInt 1, HValue.vInt 2]), ("b", [HValue.vInt 10, HValue.vInt 20])]

/-- The example scores of the spec, {(1,10): 0.5, (1,20): 0.9, (2,10): 0.3,
(2,20): 0.9}, given in tenths so that every score is an integer. -/
def exScore (c : Config) : Score :=
  if c = [("a", HValue.vInt 1), ("b", HValue.vInt 10)] then 5
  else if c = [("a", HValue.vInt 1), ("b", HValue.vInt 20)] then 9
  else if c = [("a", HValue.vInt 2), ("b", HValue.vInt 10)] then 3
  else if c = [("a", HValue.vInt 2), ("b", HValue.vInt 20)] then 9
  else 0

deriving instance DecidableEq for Except

/-- A one-hyperparameter space used to exercise the failure path. -/
def failSpace : Space := [("a", [HValue.vInt 1, HValue.vInt 2])]

/-- A train-and-evaluate function that fails on the configuration `a = 2`. -/
def failScoreE (c : Config) : Except Unit Score :=
  if c = [("a", HValue.vInt 2)] then Except.error () else Except.ok 7

/-! ### Facts about the decimal renderings used by the canonical keys -/

theorem charVal_digitChar {d : Nat} (h : d < 10) : charVal (Nat.digitChar d) = d := by
  interval_cases d <;> decide

theorem digitChar_isDigit {d : Nat} (h : d < 10) : (Nat.digitChar d).isDigit = true := by
  interval_cases d <;> decide

theorem valOf_append_singleton (l : List Char) (c : Char) :
    valOf (l ++ [c]) = valOf l * 10 + charVal c := by
  unfold valOf
  rw [List.foldl_append]
  rfl

theorem natReprAux_zero (fuel : Nat) : natReprAux fuel 0 = [] := by
  cases fuel <;> simp [natReprAux]

theorem valOf_natReprAux {fuel n : Nat} (h : n ≤ fuel) : valOf (natReprAux fuel n) = n := by
  induction fuel generalizing n with
  | zero =>
    have h0 : n = 0 := Nat.le_zero.mp h
    subst h0
    rfl
  | succ fuel ih =>
    by_cases h0 : n = 0
    · subst h0
      simp [natReprAux, valOf]
    · rw [natReprAux, if_neg h0, valOf_append_singleton]
      have hlt : n / 10 ≤ fuel := by
        have hd : n / 10 < n := Nat.div_lt_self (Nat.pos_of_ne_zero h0) (by norm_num)
        omega
      rw [ih hlt, charVal_digitChar (Nat.mod_lt n (by norm_num))]
      have hdm := Nat.div_add_mod n 10
      omega

theorem valOf_natRepr (n : Nat) : valOf (natRepr n).data = n := by
  by_cases h : n = 0
  · subst h
    rfl
  · rw [natRepr, if_neg h]
    exact valOf_natReprAux (le_refl n)

theorem natRepr_data_inj {a b : Nat} (h : (natRepr a).data = (natRepr b).data) : a = b := by
  have ha := valOf_natRepr a
  rw [h, valOf_natRepr b] at ha
  omega

theorem natReprAux_chars {fuel n : Nat} : ∀ c ∈ natReprAux fuel n, c.isDigit = true := by
  induction fuel generalizing n with
  | zero => intro c hc; simp [natReprAux] at hc
  | succ fuel ih =>
    intro c hc
    by_cases h0 : n = 0
    · subst h0
      simp [natReprAux] at hc
    · rw [natReprAux, if_neg h0] at hc
      rcases List.mem_append.mp hc with h1 | h1
      · exact ih c h1
      · have hc2 : c = Nat.digitChar (n % 10) := List.mem_singleton.mp h1
        subst hc2
        exact digitChar_isDigit (Nat.mod_lt n (by norm_num))

theorem natRepr_chars {n : Nat} : ∀ c ∈ (natRepr n).data, c.isDigit = true := by
  intro c hc
  by_cases h : n = 0
  · subst h
    have hdata : (natRepr 0).data = ['0'] := rfl
    rw [hdata] at hc
    have hc2 : c = '0' := List.mem_singleton.mp hc
    subst hc2
    decide
  · rw [natRepr, if_neg h] at hc
    exact natReprAux_chars c hc

theorem natRepr_ne_nil (n : Nat) : (natRepr n).data ≠ [] := by
  intro h
  by_cases h0 : n = 0
  · subst h0
    exact absurd h (by decide)
  · have hv := valOf_natRepr n
    rw [h] at hv
    exact h0 hv.symm

theorem not_mem_of_chars_prop {l : List Char} {P : Char → Prop}
    (hl : ∀ c ∈ l, P c) {c : Char} (hc : ¬ P c) : c ∉ l :=
  fun h => hc (hl c h)

theorem intRepr_chars {i : Int} : ∀ c ∈ (intRepr i).data, c.isDigit = true ∨ c = '-' := by
  intro c hc
  unfold intRepr at hc
  by_cases h : i < 0
  · rw [if_pos h, String.data_append] at hc
    rcases List.mem_append.mp hc with h1 | h1
    · right
      have hm : ("-" : String).data = ['-'] := rfl
      rw [hm] at h1
      exact List.mem_singleton.mp h1
    · left
      exact natRepr_chars c h1
  · rw [if_neg h] at hc
    left
    exact natRepr_chars c hc

theorem intRepr_ne_nil (i : Int) : (intRepr i).data ≠ [] := by
  unfold intRepr
  by_cases h : i < 0
  · rw [if_pos h, String.data_append]
    simp
  · rw [if_neg h]
    exact natRepr_ne_nil _

theorem intRepr_data_inj {i j : Int} (h : (intRepr i).data = (intRepr j).data) : i = j := by
  unfold intRepr at h
  by_cases hi : i < 0 <;> by_cases hj : j < 0
  · rw [if_pos hi, if_pos hj, String.data_append, String.data_append] at h
    have h2 : (natRepr i.natAbs).data = (natRepr j.natAbs).data := by
      have hm : ("-" : String).data = ['-'] := rfl
      rw [hm] at h
      simpa using h
    have := natRepr_data_inj h2
    omega
  · exfalso
    rw [if_pos hi, if_neg hj, String.data_append] at h
    have hm : '-' ∈ (natRepr j.natAbs).data := by
      rw [← h]
      simp
    have := natRepr_chars '-' hm
    exact absurd this (by decide)
  · exfalso
    rw [if_neg hi, if_pos hj, String.data_append] at h
    have hm : '-' ∈ (natRepr i.natAbs).data := by
      rw [h]
      simp
    have := natRepr_chars '-' hm
    exact absurd this (by decide)
  · rw [if_neg hi, if_neg hj] at h
    have := natRepr_data_inj h
    omega

theorem pad6_data (r : Nat) :
    (pad6 r).data = List.replicate (6 - (natRepr r).length) '0' ++ (natRepr r).data := by
  unfold pad6
  rw [String.data_append]

theorem valOf_cons_zero (l : List Char) : valOf ('0' :: l) = valOf l := by
  unfold valOf
  rw [List.foldl_cons]
  congr 1

theorem valOf_replicate_append (k : Nat) (l : List Char) :
    valOf (List.replicate k '0' ++ l) = valOf l := by
  induction k with
  | zero => simp
  | succ k ih =>
    rw [List.replicate_succ, List.cons_append, valOf_cons_zero]
    exact ih

theorem valOf_pad6 (r : Nat) : valOf (pad6 r).data = r := by
  rw [pad6_data, valOf_replicate_append, valOf_natRepr]

theorem pad6_data_inj {a b : Nat} (h : (pad6 a).data = (pad6 b).data) : a = b := by
  have ha := valOf_pad6 a
  rw [h, valOf_pad6 b] at ha
  omega

theorem pad6_chars {r : Nat} : ∀ c ∈ (pad6 r).data, c.isDigit = true := by
  intro c hc
  rw [pad6_data] at hc
  rcases List.mem_append.mp hc with h1 | h1
  · have h2 := List.eq_of_mem_replicate h1
    subst h2
    decide
  · exact natRepr_chars c h1

/-- Splitting an equation of char lists at a separator character that occurs in
neither left part. -/
theorem splitChar {c : Char} {s₁ s₂ t₁ t₂ : List Char} (h1 : c ∉ s₁) (h2 : c ∉ s₂)
    (h : s₁ ++ c :: t₁ = s₂ ++ c :: t₂) : s₁ = s₂ ∧ t₁ = t₂ := by
  rcases List.append_eq_append_iff.mp h with ⟨a, ha, hb⟩ | ⟨a, ha, hb⟩
  · cases a with
    | nil =>
      rw [List.nil_append] at hb
      injection hb with _ hb2
      exact ⟨by rw [ha, List.append_nil], hb2⟩
    | cons x xs =>
      exfalso
      rw [List.cons_append] at hb
      injection hb with hb1 _
      apply h2
      rw [ha, ← hb1]
      simp
  · cases a with
    | nil =>
      rw [List.nil_append] at hb
      injection hb with _ hb2
      exact ⟨by rw [ha, List.append_nil], hb2.symm⟩
    | cons x xs =>
      exfalso
      rw [List.cons_append] at hb
      injection hb with hb1 _
      apply h1
      rw [ha, ← hb1]
      simp

theorem floatRepr_data (m : Int) : (floatRepr m).data =
    (if m < 0 then ['-'] else ([] : List Char)) ++
      ((natRepr (m.natAbs / 1000000)).data ++ '.' :: (pad6 (m.natAbs % 1000000)).data) := by
  have hminus : ("-" : String).data = ['-'] := rfl
  have hdot : ("." : String).data = ['.'] := rfl
  have hempty : ("" : String).data = ([] : List Char) := rfl
  unfold floatRepr
  by_cases h : m < 0 <;>
    simp [h, String.data_append, hminus, hdot, hempty]

theorem floatRepr_chars {m : Int} :
    ∀ c ∈ (floatRepr m).data, c.isDigit = true ∨ c = '-' ∨ c = '.' := by
  intro c hc
  rw [floatRepr_data] at hc
  rcases List.mem_append.mp hc with h1 | h1
  · right
    left
    by_cases h : m < 0
    · rw [if_pos h] at h1
      exact List.mem_singleton.mp h1
    · rw [if_neg h] at h1
      simp at h1
  · rcases List.mem_append.mp h1 with h2 | h2
    · left
      exact natRepr_chars c h2
    · rcases List.mem_cons.mp h2 with h3 | h3
      · right
        right
        exact h3
      · left
        exact pad6_chars c h3

theorem floatRepr_data_inj {a b : Int} (h : (floatRepr a).data = (floatRepr b).data) :
    a = b := by
  have hnd : ∀ n : Nat, '.' ∉ (natRepr n).data := fun n =>
    not_mem_of_chars_prop natRepr_chars (by decide)
  rw [floatRepr_data, floatRepr_data] at h
  by_cases ha : a < 0 <;> by_cases hb : b < 0
  · rw [if_pos ha, if_pos hb] at h
    simp only [List.singleton_append, List.cons.injEq, true_and] at h
    obtain ⟨h1, h2⟩ := splitChar (hnd _) (hnd _) h
    have hq := natRepr_data_inj h1
    have hr := pad6_data_inj h2
    omega
  · exfalso
    rw [if_pos ha, if_neg hb] at h
    simp only [List.singleton_append, List.nil_append] at h
    cases hq : (natRepr (b.natAbs / 1000000)).data with
    | nil => exact natRepr_ne_nil _ hq
    | cons y ys =>
      rw [hq, List.cons_append] at h
      injection h with h1 _
      have hy : y ∈ (natRepr (b.natAbs / 1000000)).data := by
        rw [hq]
        simp
      have hdig := natRepr_chars y hy
      rw [← h1] at hdig
      exact absurd hdig (by decide)
  · exfalso
    rw [if_neg ha, if_pos hb] at h
    simp only [List.singleton_append, List.nil_append] at h
    cases hq : (natRepr (a.natAbs / 1000000)).data with
    | nil => exact natRepr_ne_nil _ hq
    | cons y ys =>
      rw [hq, List.cons_append] at h
      injection h with h1 _
      have hy : y ∈ (natRepr (a.natAbs / 1000000)).data := by
        rw [hq]
        simp
      have hdig := natRepr_chars y hy
      rw [h1] at hdig
      exact absurd hdig (by decide)
  · rw [if_neg ha, if_neg hb] at h
    simp only [List.nil_append] at h
    obtain ⟨h1, h2⟩ := splitChar (hnd _) (hnd _) h
    have hq := natRepr_data_inj h1
    have hr := pad6_data_inj h2
    omega

theorem listReprAux_cons_data (x y : Int) (ys : List Int) :
    (listReprAux (x :: y :: ys)).data =
      (intRepr x).data ++ ',' :: ' ' :: (listReprAux (y :: ys)).data := by
  show (intRepr x ++ ", " ++ listReprAux (y :: ys)).data = _
  rw [String.data_append, String.data_append, List.append_assoc]
  rfl

theorem listReprAux_chars :
    ∀ (xs : List Int), ∀ c ∈ (listReprAux xs).data,
      c.isDigit = true ∨ c = '-' ∨ c = ',' ∨ c = ' ' := by
  intro xs
  induction xs with
  | nil =>
    intro c hc
    have hd : (listReprAux []).data = [] := rfl
    rw [hd] at hc
    simp at hc
  | cons x rest ih =>
    intro c hc
    cases rest with
    | nil =>
      have hd : (listReprAux [x]).data = (intRepr x).data := rfl
      rw [hd] at hc
      rcases intRepr_chars c hc with h | h
      · left; exact h
      · right; left; exact h
    | cons y ys =>
      rw [listReprAux_cons_data] at hc
      rcases List.mem_append.mp hc with h1 | h1
      · rcases intRepr_chars c h1 with h | h
        · left; exact h
        · right; left; exact h
      · rcases List.mem_cons.mp h1 with h2 | h2
        · right; right; left; exact h2
        · rcases List.mem_cons.mp h2 with h3 | h3
          · right; right; right; exact h3
          · exact ih c h3

theorem listReprAux_ne_nil (x : Int) (xs : List Int) : (listReprAux (x :: xs)).data ≠ [] := by
  cases xs with
  | nil => exact intRepr_ne_nil x
  | cons y ys =>
    rw [listReprAux_cons_data]
    simp

theorem listReprAux_data_inj :
    ∀ xs ys : List Int, (listReprAux xs).data = (listReprAux ys).data → xs = ys := by
  intro xs
  induction xs with
  | nil =>
    intro ys h
    cases ys with
    | nil => rfl
    | cons y ys' => exact (listReprAux_ne_nil y ys' (by exact h.symm)).elim
  | cons x rest ih =>
    intro ys h
    cases ys with
    | nil => exact (listReprAux_ne_nil x rest (by exact h)).elim
    | cons y ys' =>
      cases rest with
      | nil =>
        cases ys' with
        | nil =>
          have hx := intRepr_data_inj (show (intRepr x).data = (intRepr y).data from h)
          rw [hx]
        | cons z zs =>
          exfalso
          rw [listReprAux_cons_data] at h
          have hm : ',' ∈ (intRepr x).data := by
            have hmm : ',' ∈ (listReprAux [x]).data := by
              rw [h]
              simp
            exact hmm
          rcases intRepr_chars ',' hm with hd | hd
          · exact absurd hd (by decide)
          · exact absurd hd (by decide)
      | cons x2 rest2 =>
        cases ys' with
        | nil =>
          exfalso
          rw [listReprAux_cons_data] at h
          have hm : ',' ∈ (intRepr y).data := by
            have hmm : ',' ∈ (listReprAux [y]).data := by
              rw [← h]
              simp
            exact hmm
          rcases intRepr_chars ',' hm with hd | hd
          · exact absurd hd (by decide)
          · exact absurd hd (by decide)
        | cons y2 ys2 =>
          rw [listReprAux_cons_data, listReprAux_cons_data] at h
          have hni : ∀ z : Int, ',' ∉ (intRepr z).data := fun z =>
            not_mem_of_chars_prop intRepr_chars (by decide)
          obtain ⟨h1, h2⟩ := splitChar (hni x) (hni y) h
          injection h2 with _ h3
          have hx := intRepr_data_inj h1
          have hrest := ih (y2 :: ys2) h3
          rw [hx, hrest]

/-! ### Facts about the per-value key fragments and the assembled keys -/

theorem valueStr_vInt_data (i : Int) :
    (valueStr (HValue.vInt i)).data = '_' :: (intRepr i).data := by
  show ("_" ++ intRepr i).data = _
  rw [String.data_append]
  rfl

theorem valueStr_vFloat_data (m : Int) :
    (valueStr (HValue.vFloat m)).data = '_' :: (floatRepr m).data := by
  show ("_" ++ floatRepr m).data = _
  rw [String.data_append]
  rfl

theorem listRepr_data (xs : List Int) :
    (listRepr xs).data = '[' :: ((listReprAux xs).data ++ [']']) := by
  show ("[" ++ listReprAux xs ++ "]").data = _
  rw [String.data_append, String.data_append]
  rfl

theorem valueStr_data_ne_nil (v : HValue) : (valueStr v).data ≠ [] := by
  cases v with
  | vInt i => rw [valueStr_vInt_data]; simp
  | vFloat m => rw [valueStr_vFloat_data]; simp
  | vList xs => rw [show valueStr (HValue.vList xs) = listRepr xs from rfl, listRepr_data]; simp

theorem valueStr_tail_no_us (v : HValue) : ∀ ch ∈ (valueStr v).data.tail, ch ≠ '_' := by
  cases v with
  | vInt i =>
    intro ch hch
    rw [valueStr_vInt_data, List.tail_cons] at hch
    rcases intRepr_chars ch hch with h | h <;>
      (intro he; subst he; exact absurd h (by decide))
  | vFloat m =>
    intro ch hch
    rw [valueStr_vFloat_data, List.tail_cons] at hch
    rcases floatRepr_chars ch hch with h | h | h <;>
      (intro he; subst he; exact absurd h (by decide))
  | vList xs =>
    intro ch hch
    rw [show valueStr (HValue.vList xs) = listRepr xs from rfl, listRepr_data,
      List.tail_cons] at hch
    rcases List.mem_append.mp hch with h1 | h1
    · rcases listReprAux_chars xs ch h1 with h | h | h | h <;>
        (intro he; subst he; exact absurd h (by decide))
    · have h2 : ch = ']' := List.mem_singleton.mp h1
      subst h2
      decide

theorem dot_mem_floatRepr (m : Int) : '.' ∈ (floatRepr m).data := by
  rw [floatRepr_data]
  simp

theorem valueStr_data_inj {u v : HValue} (h : (valueStr u).data = (valueStr v).data) :
    u = v := by
  cases u with
  | vInt i =>
    cases v with
    | vInt j =>
      rw [valueStr_vInt_data, valueStr_vInt_data] at h
      injection h with _ h2
      rw [intRepr_data_inj h2]
    | vFloat m =>
      exfalso
      rw [valueStr_vInt_data, valueStr_vFloat_data] at h
      injection h with _ h2
      have hm : '.' ∈ (intRepr i).data := by
        rw [h2]
        exact dot_mem_floatRepr m
      rcases intRepr_chars '.' hm with hd | hd <;> exact absurd hd (by decide)
    | vList xs =>
      exfalso
      rw [valueStr_vInt_data,
        show valueStr (HValue.vList xs) = listRepr xs from rfl, listRepr_data] at h
      injection h with h1 _
      exact absurd h1 (by decide)
  | vFloat m =>
    cases v with
    | vInt j =>
      exfalso
      rw [valueStr_vFloat_data, valueStr_vInt_data] at h
      injection h with _ h2
      have hm : '.' ∈ (intRepr j).data := by
        rw [← h2]
        exact dot_mem_floatRepr m
      rcases intRepr_chars '.' hm with hd | hd <;> exact absurd hd (by decide)
    | vFloat m' =>
      rw [valueStr_vFloat_data, valueStr_vFloat_data] at h
      injection h with _ h2
      rw [floatRepr_data_inj h2]
    | vList xs =>
      exfalso
      rw [valueStr_vFloat_data,
        show valueStr (HValue.vList xs) = listRepr xs from rfl, listRepr_data] at h
      injection h with h1 _
      exact absurd h1 (by decide)
  | vList xs =>
    cases v with
    | vInt j =>
      exfalso
      rw [show valueStr (HValue.vList xs) = listRepr xs from rfl, listRepr_data,
        valueStr_vInt_data] at h
      injection h with h1 _
      exact absurd h1 (by decide)
    | vFloat m' =>
      exfalso
      rw [show valueStr (HValue.vList xs) = listRepr xs from rfl, listRepr_data,
        valueStr_vFloat_data] at h
      injection h with h1 _
      exact absurd h1 (by decide)
    | vList ys =>
      rw [show valueStr (HValue.vList xs) = listRepr xs from rfl,
        show valueStr (HValue.vList ys) = listRepr ys from rfl,
        listRepr_data, listRepr_data] at h
      injection h with _ h2
      have h3 := (List.append_inj' h2 rfl).1
      rw [listReprAux_data_inj xs ys h3]

/-- Splitting a value fragment followed by a key continuation: the fragment is
nonempty and underscore-free after its head, while any continuation is empty or
starts with an underscore, so the split point is unique. -/
theorem seg_split {s₁ s₂ k₁ k₂ : List Char}
    (n₁ : s₁ ≠ []) (n₂ : s₂ ≠ [])
    (t₁ : ∀ ch ∈ s₁.tail, ch ≠ '_') (t₂ : ∀ ch ∈ s₂.tail, ch ≠ '_')
    (q₁ : k₁ = [] ∨ ∃ t, k₁ = '_' :: t) (q₂ : k₂ = [] ∨ ∃ t, k₂ = '_' :: t)
    (h : s₁ ++ k₁ = s₂ ++ k₂) : s₁ = s₂ ∧ k₁ = k₂ := by
  rcases List.append_eq_append_iff.mp h with ⟨a, ha, hb⟩ | ⟨a, ha, hb⟩
  · cases a with
    | nil => exact ⟨by rw [ha, List.append_nil], by rw [hb, List.nil_append]⟩
    | cons x xs =>
      exfalso
      rcases q₁ with hk | ⟨t, hk⟩
      · subst hk
        rw [List.cons_append] at hb
        exact List.noConfusion hb
      · subst hk
        rw [List.cons_append] at hb
        injection hb with h1 _
        cases s₁ with
        | nil => exact n₁ rfl
        | cons c cs =>
          refine t₂ x ?_ h1.symm
          rw [ha]
          simp
  · cases a with
    | nil => exact ⟨by rw [ha, List.append_nil], by rw [hb, List.nil_append]⟩
    | cons x xs =>
      exfalso
      rcases q₂ with hk | ⟨t, hk⟩
      · subst hk
        rw [List.cons_append] at hb
        exact List.noConfusion hb
      · subst hk
        rw [List.cons_append] at hb
        injection hb with h1 _
        cases s₂ with
        | nil => exact n₂ rfl
        | cons c cs =>
          refine t₁ x ?_ h1.symm
          rw [ha]
          simp

theorem keyOfSorted_cons_data (n : String) (ns : List String) (c : Config) :
    (keyOfSorted (n :: ns) c).data =
      '_' :: (n.data ++ ((valueStr (lookupVal c n)).data ++ (keyOfSorted ns c).data)) := by
  show ("_" ++ n ++ valueStr (lookupVal c n) ++ keyOfSorted ns c).data = _
  rw [String.data_append, String.data_append, String.data_append,
    List.append_assoc, List.append_assoc]
  rfl

theorem keyOfSorted_head (ns : List String) (c : Config) :
    (keyOfSorted ns c).data = [] ∨ ∃ t, (keyOfSorted ns c).data = '_' :: t := by
  cases ns with
  | nil => exact Or.inl rfl
  | cons n ns' => exact Or.inr ⟨_, keyOfSorted_cons_data n ns' c⟩

/-- Over a common name list, equal assembled keys force equal looked-up values
at every name: the canonical key determines the configuration. -/
theorem keyOfSorted_inj :
    ∀ (ns : List String) (c₁ c₂ : Config),
      (keyOfSorted ns c₁).data = (keyOfSorted ns c₂).data →
      ∀ n ∈ ns, lookupVal c₁ n = lookupVal c₂ n := by
  intro ns
  induction ns with
  | nil =>
    intro c₁ c₂ h n hn
    simp at hn
  | cons m ns' ih =>
    intro c₁ c₂ h n hn
    rw [keyOfSorted_cons_data, keyOfSorted_cons_data] at h
    injection h with _ h2
    have h3 := List.append_cancel_left h2
    obtain ⟨hv, hk⟩ := seg_split (valueStr_data_ne_nil _) (valueStr_data_ne_nil _)
      (valueStr_tail_no_us _) (valueStr_tail_no_us _)
      (keyOfSorted_head ns' c₁) (keyOfSorted_head ns' c₂) h3
    rcases List.mem_cons.mp hn with h1 | h1
    · subst h1
      exact valueStr_data_inj hv
    · exact ih c₁ c₂ hk n h1

/-! ### Facts about configurations, lookups and the enumeration -/

theorem lookupVal_cons_eq (n : String) (v : HValue) (c : Config) :
    lookupVal ((n, v) :: c) n = v := by
  unfold lookupVal
  rw [List.find?_cons_of_pos]
  simp

theorem lookupVal_cons_ne {n m : String} (hnm : m ≠ n) (v : HValue) (c : Config) :
    lookupVal ((m, v) :: c) n = lookupVal c n := by
  unfold lookupVal
  rw [List.find?_cons_of_neg]
  simp [hnm]

theorem config_eq_of_lookups :
    ∀ (c₁ c₂ : Config), c₁.map Prod.fst = c₂.map Prod.fst →
      (c₁.map Prod.fst).Nodup →
      (∀ n ∈ c₁.map Prod.fst, lookupVal c₁ n = lookupVal c₂ n) → c₁ = c₂ := by
  intro c₁
  induction c₁ with
  | nil =>
    intro c₂ hm _ _
    cases c₂ with
    | nil => rfl
    | cons p c₂' => exact List.noConfusion hm
  | cons p c₁' ih =>
    intro c₂ hm hnd hl
    cases c₂ with
    | nil => exact List.noConfusion hm
    | cons q c₂' =>
      obtain ⟨n, v⟩ := p
      obtain ⟨n', v'⟩ := q
      simp only [List.map_cons] at hm
      injection hm with hm1 hm2
      subst hm1
      have hv := hl n (by simp)
      rw [lookupVal_cons_eq, lookupVal_cons_eq] at hv
      subst hv
      simp only [List.map_cons, List.nodup_cons] at hnd
      have htail : ∀ m ∈ c₁'.map Prod.fst, lookupVal c₁' m = lookupVal c₂' m := by
        intro m hmem
        have hmn : m ≠ n := fun e => hnd.1 (by rw [← e]; exact hmem)
        have hstep := hl m (by simp [hmem])
        rwa [lookupVal_cons_ne (fun e => hmn e.symm),
          lookupVal_cons_ne (fun e => hmn e.symm)] at hstep
      rw [ih c₂' hm2 hnd.2 htail]

theorem configs_names : ∀ (space : Space) (c : Config), c ∈ configs space →
    c.map Prod.fst = space.map Prod.fst := by
  intro space
  induction space with
  | nil =>
    intro c hc
    simp only [configs, List.mem_singleton] at hc
    subst hc
    rfl
  | cons p rest ih =>
    obtain ⟨n, vs⟩ := p
    intro c hc
    simp only [configs, List.mem_flatMap, List.mem_map] at hc
    obtain ⟨v, _, c', hc', rfl⟩ := hc
    simp only [List.map_cons]
    rw [ih c' hc']

theorem sum_map_const {α : Type} (l : List α) (k : Nat) :
    (l.map fun _ => k).sum = l.length * k := by
  induction l with
  | nil => simp
  | cons a l ih =>
    simp only [List.map_cons, List.sum_cons, List.length_cons, ih]
    ring

theorem configs_length : ∀ space : Space,
    (configs space).length = (space.map (fun p => p.2.length)).prod := by
  intro space
  induction space with
  | nil => rfl
  | cons p rest ih =>
    obtain ⟨n, vs⟩ := p
    simp only [configs, List.map_cons, List.prod_cons]
    rw [List.length_flatMap]
    simp only [Function.comp_def, List.length_map]
    rw [sum_map_const, ih]

theorem configs_ne_nil {space : Space} (hne : ∀ p ∈ space, p.2 ≠ []) :
    configs space ≠ [] := by
  have hl := configs_length space
  intro h
  rw [h] at hl
  simp only [List.length_nil] at hl
  have hpos : 0 < (space.map (fun p => p.2.length)).prod := by
    apply List.prod_pos
    intro x hx
    rcases List.mem_map.mp hx with ⟨p, hp, rfl⟩
    exact List.length_pos.mpr (hne p hp)
  omega

theorem configs_nodup : ∀ space : Space, (∀ p ∈ space, p.2.Nodup) →
    (configs space).Nodup := by
  intro space
  induction space with
  | nil => intro _; simp [configs]
  | cons p rest ih =>
    obtain ⟨n, vs⟩ := p
    intro h
    simp only [configs]
    rw [List.nodup_flatMap]
    constructor
    · intro v _
      have hinj : Function.Injective (fun c : Config => (n, v) :: c) := by
        intro a b e
        simpa using e
      exact List.Nodup.map hinj (ih (fun q hq => h q (by simp [hq])))
    · have hvs : vs.Nodup := h (n, vs) (by simp)
      apply List.Pairwise.imp ?_ hvs
      intro a b hab
      intro x hx1 hx2
      rcases List.mem_map.mp hx1 with ⟨c1, _, rfl⟩
      rcases List.mem_map.mp hx2 with ⟨c2, _, he⟩
      injection he with he1 _
      injection he1 with _ he2
      exact hab he2.symm

theorem find?_key_mem {c : Config} {n : String} {p : String × HValue}
    (h : c.find? (fun q => q.1 == n) = some p) : p ∈ c ∧ p.1 = n := by
  have h1 := List.find?_some h
  have h2 := List.mem_of_find?_eq_some h
  exact ⟨h2, by simpa using h1⟩

theorem nodup_keys_unique {c : Config} (hnd : (c.map Prod.fst).Nodup)
    {p q : String × HValue} (hp : p ∈ c) (hq : q ∈ c) (he : p.1 = q.1) : p = q :=
  List.inj_on_of_nodup_map hnd hp hq he

theorem lookupVal_perm {c₁ c₂ : Config} (hp : c₁.Perm c₂)
    (hnd : (c₁.map Prod.fst).Nodup) (n : String) :
    lookupVal c₁ n = lookupVal c₂ n := by
  unfold lookupVal
  cases h1 : c₁.find? (fun q => q.1 == n) with
  | none =>
    cases h2 : c₂.find? (fun q => q.1 == n) with
    | none => rfl
    | some p =>
      exfalso
      obtain ⟨hpm, hpn⟩ := find?_key_mem h2
      have hm1 : p ∈ c₁ := (hp.mem_iff).mpr hpm
      have := List.find?_eq_none.mp h1 p hm1
      simp [hpn] at this
  | some p =>
    obtain ⟨hpm, hpn⟩ := find?_key_mem h1
    cases h2 : c₂.find? (fun q => q.1 == n) with
    | none =>
      exfalso
      have hm2 : p ∈ c₂ := (hp.mem_iff).mp hpm
      have := List.find?_eq_none.mp h2 p hm2
      simp [hpn] at this
    | some q =>
      obtain ⟨hqm, hqn⟩ := find?_key_mem h2
      have hq1 : q ∈ c₁ := (hp.mem_iff).mpr hqm
      have hpq : p = q := nodup_keys_unique hnd hpm hq1 (hpn.trans hqn.symm)
      rw [hpq]

theorem keyOfSorted_congr (ns : List String) {c₁ c₂ : Config}
    (h : ∀ n ∈ ns, lookupVal c₁ n = lookupVal c₂ n) :
    keyOfSorted ns c₁ = keyOfSorted ns c₂ := by
  induction ns with
  | nil => rfl
  | cons n ns' ih =>
    show "_" ++ n ++ valueStr (lookupVal c₁ n) ++ keyOfSorted ns' c₁ = _
    rw [h n (by simp), ih (fun m hm => h m (by simp [hm]))]
    rfl

/-- The canonical key is invariant under permuting a configuration's pairs:
equal configurations (as mappings) always produce equal keys. -/
theorem hpStr_perm {c₁ c₂ : Config} (hp : c₁.Perm c₂)
    (hnd : (c₁.map Prod.fst).Nodup) : hpStr c₁ = hpStr c₂ := by
  have hsn : sortedNames c₁ = sortedNames c₂ := by
    unfold sortedNames
    exact List.eq_of_perm_of_sorted
      (((List.perm_insertionSort strLeRel (c₁.map Prod.fst)).trans (hp.map Prod.fst)).trans
        (List.perm_insertionSort strLeRel (c₂.map Prod.fst)).symm)
      (List.sorted_insertionSort strLeRel (c₁.map Prod.fst))
      (List.sorted_insertionSort strLeRel (c₂.map Prod.fst))
  unfold hpStr
  rw [hsn]
  exact keyOfSorted_congr _ (fun n _ => lookupVal_perm hp hnd n)

/-- Distinct configurations drawn from a space with distinct hyperparameter
names receive distinct canonical keys. -/
theorem hpStr_inj_on_configs {space : Space} (hnames : (space.map Prod.fst).Nodup)
    {c₁ c₂ : Config} (h1 : c₁ ∈ configs space) (h2 : c₂ ∈ configs space)
    (hkey : hpStr c₁ = hpStr c₂) : c₁ = c₂ := by
  have hm1 := configs_names space c₁ h1
  have hm2 := configs_names space c₂ h2
  have hsn : sortedNames c₁ = sortedNames c₂ := by
    unfold sortedNames
    rw [hm1, hm2]
  have hd := congrArg String.data hkey
  unfold hpStr at hd
  rw [hsn] at hd
  have hlk := keyOfSorted_inj (sortedNames c₂) c₁ c₂ hd
  apply config_eq_of_lookups c₁ c₂ (hm1.trans hm2.symm) (by rw [hm1]; exact hnames)
  intro n hn
  apply hlk
  unfold sortedNames
  rw [List.mem_insertionSort, hm2, ← hm1]
  exact hn

/-! ### Facts about the sweep and the running best -/

theorem better_trans {M : Bool} {a b c : Score} (h1 : better M a b = true)
    (h2 : better M b c = true) : better M a c = true := by
  cases M <;> simp [better] at * <;> linarith

theorem better_trans_le {M : Bool} {a b c : Score} (h1 : better M a b = true)
    (h2 : better M c b = false) : better M a c = true := by
  cases M <;> simp [better] at * <;> linarith

theorem sweep_pure (ε : Type) (score : Config → Score) (maximize : Bool) :
    ∀ (l : List Config) (best : Option (Config × Score)) (tbl : List (String × Score)),
      sweep (ε := ε) (fun c => Except.ok (score c)) maximize l best tbl =
        Except.ok (l.foldl (stepBest maximize score) best,
          tbl ++ l.map (fun c => (hpStr c, score c))) := by
  intro l
  induction l with
  | nil =>
    intro best tbl
    simp [sweep]
  | cons c cs ih =>
    intro best tbl
    have e1 : sweep (ε := ε) (fun c => Except.ok (score c)) maximize (c :: cs) best tbl =
        sweep (ε := ε) (fun c => Except.ok (score c)) maximize cs (stepBest maximize score best c)
          (tbl ++ [(hpStr c, score c)]) := rfl
    rw [e1, ih]
    simp

/-- After folding the running-best step over the remaining configurations, the
final best is the first configuration attaining the optimum: every earlier
configuration scores strictly worse, every later one scores no better. -/
theorem foldl_stepBest_spec (maximize : Bool) (score : Config → Score) :
    ∀ (l : List Config) (b : Config),
      ∃ bc, List.foldl (stepBest maximize score) (some (b, score b)) l
          = some (bc, score bc) ∧
        ∃ l₁ l₂, b :: l = l₁ ++ bc :: l₂ ∧
          (∀ d ∈ l₁, better maximize (score bc) (score d) = true) ∧
          (∀ d ∈ l₂, better maximize (score d) (score bc) = false) := by
  intro l
  induction l with
  | nil =>
    intro b
    exact ⟨b, rfl, [], [], rfl, by simp, by simp⟩
  | cons c cs ih =>
    intro b
    rw [List.foldl_cons]
    by_cases hb : better maximize (score c) (score b) = true
    · rw [show stepBest maximize score (some (b, score b)) c = some (c, score c) from by
        simp [stepBest, hb]]
      obtain ⟨bc, hfold, l₁, l₂, hsplit, hl₁, hl₂⟩ := ih c
      refine ⟨bc, hfold, ?_⟩
      cases l₁ with
      | nil =>
        rw [List.nil_append] at hsplit
        injection hsplit with h1 h2
        refine ⟨[b], l₂, ?_, ?_, hl₂⟩
        · simp [h1, h2]
        · intro d hd
          have hd2 : d = b := List.mem_singleton.mp hd
          subst hd2
          rw [← h1]
          exact hb
      | cons x l₁' =>
        rw [List.cons_append] at hsplit
        injection hsplit with h1 h2
        refine ⟨b :: x :: l₁', l₂, ?_, ?_, hl₂⟩
        · rw [List.cons_append, List.cons_append, ← h2, h1]
        · intro d hd
          rcases List.mem_cons.mp hd with h3 | h3
          · subst h3
            have hc : better maximize (score bc) (score c) = true := by
              rw [h1]
              exact hl₁ x (by simp)
            exact better_trans hc hb
          · exact hl₁ d h3
    · have hb' : better maximize (score c) (score b) = false := by
        rwa [Bool.not_eq_true] at hb
      rw [show stepBest maximize score (some (b, score b)) c = some (b, score b) from by
        simp [stepBest, hb']]
      obtain ⟨bc, hfold, l₁, l₂, hsplit, hl₁, hl₂⟩ := ih b
      refine ⟨bc, hfold, ?_⟩
      cases l₁ with
      | nil =>
        rw [List.nil_append] at hsplit
        injection hsplit with h1 h2
        refine ⟨[], c :: l₂, ?_, by simp, ?_⟩
        · simp [← h1, ← h2]
        · intro d hd
          rcases List.mem_cons.mp hd with h3 | h3
          · subst h3
            rw [← h1]
            exact hb'
          · exact hl₂ d h3
      | cons x l₁'' =>
        rw [List.cons_append] at hsplit
        injection hsplit with h1 h2
        refine ⟨b :: c :: l₁'', l₂, ?_, ?_, hl₂⟩
        · rw [List.cons_append, List.cons_append, ← h2]
        · intro d hd
          have hxb : better maximize (score bc) (score b) = true := by
            rw [h1]
            exact hl₁ x (by simp)
          rcases List.mem_cons.mp hd with h3 | h3
          · subst h3
            exact hxb
          · rcases List.mem_cons.mp h3 with h4 | h4
            · subst h4
              exact better_trans_le hxb hb'
            · exact hl₁ d (by simp [h4])

/-- Master lemma: on a space with no empty candidate list and with every
configuration training successfully, the search returns the model built from
the best configuration, that configuration, and the table holding one entry
per enumerated configuration, keyed canonically; the best configuration is the
first one attaining the optimal score in enumeration order. -/
theorem search_ok_master {M ε : Type} (space : Space) (build : Config → M)
    (score : Config → Score) (maximize : Bool) (hne : ∀ p ∈ space, p.2 ≠ []) :
    ∃ bc l₁ l₂,
      hyperparam_search (ε := ε) space build (fun c => Except.ok (score c)) maximize =
        Except.ok (build bc, bc, (configs space).map (fun c => (hpStr c, score c))) ∧
      configs space = l₁ ++ bc :: l₂ ∧
      (∀ d ∈ l₁, better maximize (score bc) (score d) = true) ∧
      (∀ d ∈ l₂, better maximize (score d) (score bc) = false) := by
  have hfind : space.find? (fun p => p.2.isEmpty) = none := by
    rw [List.find?_eq_none]
    intro p hp
    simpa [List.isEmpty_iff] using hne p hp
  cases hcfg : configs space with
  | nil => exact absurd hcfg (configs_ne_nil hne)
  | cons c₀ cs =>
    obtain ⟨bc, hfold, l₁, l₂, hsplit, hl₁, hl₂⟩ := foldl_stepBest_spec maximize score cs c₀
    have hsweep := sweep_pure ε score maximize (c₀ :: cs) none []
    have hfold0 : List.foldl (stepBest maximize score) none (c₀ :: cs)
        = some (bc, score bc) := by
      rw [List.foldl_cons]
      exact hfold
    rw [hfold0, List.nil_append] at hsweep
    refine ⟨bc, l₁, l₂, ?_, hsplit, hl₁, hl₂⟩
    unfold hyperparam_search
    rw [hfind, hcfg, hsweep]

theorem sweep_error {ε : Type} (scoreE : Config → Except ε Score) (maximize : Bool)
    (f : Config → Score) (e : ε) :
    ∀ (l₁ : List Config) (c : Config) (l₂ : List Config) (best : Option (Config × Score))
      (tbl : List (String × Score)),
      (∀ d ∈ l₁, scoreE d = Except.ok (f d)) → scoreE c = Except.error e →
      sweep scoreE maximize (l₁ ++ c :: l₂) best tbl =
        Except.error (c, e, tbl ++ l₁.map (fun d => (hpStr d, f d))) := by
  intro l₁
  induction l₁ with
  | nil =>
    intro c l₂ best tbl _ herr
    show sweep scoreE maximize (c :: l₂) best tbl = _
    simp only [sweep, herr]
    simp
  | cons d l₁' ih =>
    intro c l₂ best tbl hok herr
    have hd := hok d (by simp)
    show sweep scoreE maximize (d :: (l₁' ++ c :: l₂)) best tbl = _
    simp only [sweep, hd]
    rw [ih c l₂ _ _ (fun x hx => hok x (by simp [hx])) herr]
    simp

/-! ### The claims -/

/-- Claim C1: for every hyperparameter space mapping names to candidate lists
of sizes n1, …, nk (none of them empty, so the search completes), the search
evaluates exactly n1⋯nk configurations, and the returned result table has
exactly one entry per configuration: its length is n1⋯nk. -/
theorem search_table_size {M ε : Type} (space : Space) (build : Config → M)
    (score : Config → Score) (maximize : Bool) (hne : ∀ p ∈ space, p.2 ≠ []) :
    (configs space).length = (space.map (fun p => p.2.length)).prod ∧
    ∃ m bc tbl,
      hyperparam_search (ε := ε) space build (fun c => Except.ok (score c)) maximize =
        Except.ok (m, bc, tbl) ∧
      tbl.length = (space.map (fun p => p.2.length)).prod := by
  obtain ⟨bc, l₁, l₂, hok, _, _, _⟩ := search_ok_master space build score maximize hne
  refine ⟨configs_length space, build bc, bc, _, hok, ?_⟩
  rw [List.length_map, configs_length]

theorem search_table_size_witness :
    (∀ p ∈ exSpace, p.2 ≠ []) ∧
    ((configs exSpace).length = (exSpace.map (fun p => p.2.length)).prod ∧
    ∃ m bc tbl,
      hyperparam_search (ε := Unit) exSpace (fun _ => ())
          (fun c => Except.ok (exScore c)) true =
        Except.ok (m, bc, tbl) ∧
      tbl.length = (exSpace.map (fun p => p.2.length)).prod) :=
  ⟨by decide, search_table_size exSpace (fun _ => ()) exScore true (by decide)⟩

/-- Claim C2: the returned triple is the best model instance (built from the
best configuration), that configuration, and the full result table, and the
best configuration's score is the maximum (for maximize orientation) or
minimum (for minimize orientation) score present in the table. -/
theorem search_best_is_extremum {M ε : Type} (space : Space) (build : Config → M)
    (score : Config → Score) (maximize : Bool) (hne : ∀ p ∈ space, p.2 ≠ []) :
    ∃ bc tbl,
      hyperparam_search (ε := ε) space build (fun c => Except.ok (score c)) maximize =
        Except.ok (build bc, bc, tbl) ∧
      (hpStr bc, score bc) ∈ tbl ∧
      ∀ kv ∈ tbl, if maximize then kv.2 ≤ score bc else score bc ≤ kv.2 := by
  obtain ⟨bc, l₁, l₂, hok, hsplit, hl₁, hl₂⟩ := search_ok_master space build score maximize hne
  refine ⟨bc, _, hok, ?_, ?_⟩
  · exact List.mem_map_of_mem _ (by rw [hsplit]; simp)
  · intro kv hkv
    rcases List.mem_map.mp hkv with ⟨c, hc, rfl⟩
    rw [hsplit] at hc
    rcases List.mem_append.mp hc with h1 | h1
    · have hb := hl₁ c h1
      cases maximize <;> simp [better] at hb ⊢ <;> linarith
    · rcases List.mem_cons.mp h1 with h2 | h2
      · subst h2
        cases maximize <;> simp
      · have hb := hl₂ c h2
        cases maximize <;> simp [better] at hb ⊢ <;> linarith

theorem search_best_is_extremum_witness :
    (∀ p ∈ exSpace, p.2 ≠ []) ∧
    ∃ bc tbl,
      hyperparam_search (ε := Unit) exSpace (fun _ => ())
          (fun c => Except.ok (exScore c)) true =
        Except.ok ((), bc, tbl) ∧
      (hpStr bc, exScore bc) ∈ tbl ∧
      ∀ kv ∈ tbl, if true then kv.2 ≤ exScore bc else exScore bc ≤ kv.2 :=
  ⟨by decide, search_best_is_extremum exSpace (fun _ => ()) exScore true (by decide)⟩

/-- Claim C3: every configuration's score is recorded under the canonical key
built from its (name, value) pairs sorted by hyperparameter name — the table
is exactly the enumeration mapped to (canonical key, score) pairs — with
floats rendered in fixed-point notation and lists in their literal form, and
equal configurations (equal as mappings, whatever their pair order) always
produce equal keys. -/
theorem table_keys_canonical {M ε : Type} (space : Space) (build : Config → M)
    (score : Config → Score) (maximize : Bool) (hne : ∀ p ∈ space, p.2 ≠ []) :
    (∃ m bc,
      hyperparam_search (ε := ε) space build (fun c => Except.ok (score c)) maximize =
        Except.ok (m, bc, (configs space).map (fun c => (hpStr c, score c)))) ∧
    (∀ c₁ c₂ : Config, c₁.Perm c₂ → (c₁.map Prod.fst).Nodup → hpStr c₁ = hpStr c₂) ∧
    valueStr (HValue.vFloat 200000) = "_0.200000" ∧
    valueStr (HValue.vList [1000, 1000]) = "[1000, 1000]" := by
  obtain ⟨bc, l₁, l₂, hok, _, _, _⟩ := search_ok_master space build score maximize hne
  exact ⟨⟨build bc, bc, hok⟩, fun c₁ c₂ hp hnd => hpStr_perm hp hnd, by decide, by decide⟩

theorem table_keys_canonical_witness :
    (∀ p ∈ exSpace, p.2 ≠ []) ∧
    ((∃ m bc,
      hyperparam_search (ε := Unit) exSpace (fun _ => ())
          (fun c => Except.ok (exScore c)) true =
        Except.ok (m, bc, (configs exSpace).map (fun c => (hpStr c, exScore c)))) ∧
    (∀ c₁ c₂ : Config, c₁.Perm c₂ → (c₁.map Prod.fst).Nodup → hpStr c₁ = hpStr c₂) ∧
    valueStr (HValue.vFloat 200000) = "_0.200000" ∧
    valueStr (HValue.vList [1000, 1000]) = "[1000, 1000]") :=
  ⟨by decide, table_keys_canonical exSpace (fun _ => ()) exScore true (by decide)⟩

/-- Claim C4: a space in which some hyperparameter has an empty candidate list
makes the search report a configuration error — whatever the train/evaluate
function, which is never consulted — rather than succeed with an empty
table. -/
theorem empty_candidates_config_error {M ε : Type} (space : Space) (build : Config → M)
    (scoreE : Config → Except ε Score) (maximize : Bool)
    (hp : ∃ p ∈ space, p.2 = []) :
    ∃ name, hyperparam_search space build scoreE maximize =
      Except.error (SearchError.configError name) := by
  have hsome : (space.find? (fun p => p.2.isEmpty)).isSome := by
    rw [List.find?_isSome]
    rcases hp with ⟨p, hpm, hpe⟩
    exact ⟨p, hpm, by simp [hpe]⟩
  rcases Option.isSome_iff_exists.mp hsome with ⟨q, hq⟩
  refine ⟨q.1, ?_⟩
  unfold hyperparam_search
  rw [hq]

theorem empty_candidates_config_error_witness :
    (∃ p ∈ [(("a" : String), ([] : List HValue)), ("b", [HValue.vInt 10])], p.2 = []) ∧
    ∃ name,
      hyperparam_search (M := Unit) (ε := Unit)
          [("a", []), ("b", [HValue.vInt 10])] (fun _ => ()) (fun _ => Except.ok 0) true =
        Except.error (SearchError.configError name) :=
  ⟨by decide,
    empty_candidates_config_error [("a", []), ("b", [HValue.vInt 10])] (fun _ => ())
      (fun _ => Except.ok 0) true (by decide)⟩

/-- Claim C5: the running best is replaced only on strict improvement, so the
returned best configuration is the first one attaining the optimum in the
deterministic enumeration order: every configuration before it scores strictly
worse, and no configuration after it scores strictly better (ties keep the
first-seen configuration). -/
theorem search_best_first_seen {M ε : Type} (space : Space) (build : Config → M)
    (score : Config → Score) (maximize : Bool) (hne : ∀ p ∈ space, p.2 ≠ []) :
    ∃ bc tbl l₁ l₂,
      hyperparam_search (ε := ε) space build (fun c => Except.ok (score c)) maximize =
        Except.ok (build bc, bc, tbl) ∧
      configs space = l₁ ++ bc :: l₂ ∧
      (∀ d ∈ l₁, better maximize (score bc) (score d) = true) ∧
      (∀ d ∈ l₂, better maximize (score d) (score bc) = false) := by
  obtain ⟨bc, l₁, l₂, hok, hsplit, hl₁, hl₂⟩ := search_ok_master space build score maximize hne
  exact ⟨bc, _, l₁, l₂, hok, hsplit, hl₁, hl₂⟩

theorem search_best_first_seen_witness :
    (∀ p ∈ exSpace, p.2 ≠ []) ∧
    (∃ bc tbl l₁ l₂,
      hyperparam_search (ε := Unit) exSpace (fun _ => ())
          (fun c => Except.ok (exScore c)) true =
        Except.ok ((), bc, tbl) ∧
      configs exSpace = l₁ ++ bc :: l₂ ∧
      (∀ d ∈ l₁, better true (exScore bc) (exScore d) = true) ∧
      (∀ d ∈ l₂, better true (exScore d) (exScore bc) = false)) ∧
    hyperparam_search (ε := Unit) exSpace (fun _ => ())
        (fun c => Except.ok (exScore c)) true =
      Except.ok ((), [("a", HValue.vInt 1), ("b", HValue.vInt 20)],
        [("_a_1_b_10", 5), ("_a_1_b_20", 9), ("_a_2_b_10", 3), ("_a_2_b_20", 9)]) :=
  ⟨by decide, search_best_first_seen exSpace (fun _ => ()) exScore true (by decide), by decide⟩

/-- Claim C6 counterexample: with the duplicated candidate list `{a: [1, 1]}`
the search succeeds with a two-entry result table both of whose keys are
`_a_1`, so the table's keys are not pairwise distinct as the claim states. -/
theorem dup_candidates_dup_keys :
    hyperparam_search [("a", [HValue.vInt 1, HValue.vInt 1])] (fun _ => ())
      (fun _ => (Except.ok 0 : Except Unit Score)) true =
      Except.ok ((), [("a", HValue.vInt 1)], [("_a_1", 0), ("_a_1", 0)]) ∧
    ¬ (List.map Prod.fst [(("_a_1" : String), (0 : Score)), ("_a_1", 0)]).Nodup :=
  ⟨by decide, by decide⟩

/-- Claim C6 (amended): key derivation and enumeration are deterministic
functions of the inputs — re-running the search with an extensionally equal
deterministic train/evaluate function returns the identical result — and,
provided the space is a genuine mapping (pairwise distinct names) whose
candidate lists repeat no value, the result table's keys are pairwise
distinct, one per configuration. -/
theorem keys_nodup_amended {M ε : Type} (space : Space) (build : Config → M)
    (score score' : Config → Score) (maximize : Bool)
    (hne : ∀ p ∈ space, p.2 ≠ [])
    (hnames : (space.map Prod.fst).Nodup)
    (hvals : ∀ p ∈ space, p.2.Nodup)
    (hagree : ∀ c, score' c = score c) :
    (∃ m bc tbl,
      hyperparam_search (ε := ε) space build (fun c => Except.ok (score c)) maximize =
        Except.ok (m, bc, tbl) ∧
      tbl.map Prod.fst = (configs space).map hpStr ∧
      (tbl.map Prod.fst).Nodup) ∧
    hyperparam_search (ε := ε) space build (fun c => Except.ok (score' c)) maximize =
      hyperparam_search (ε := ε) space build (fun c => Except.ok (score c)) maximize := by
  constructor
  · obtain ⟨bc, l₁, l₂, hok, _, _, _⟩ := search_ok_master space build score maximize hne
    refine ⟨build bc, bc, _, hok, ?_, ?_⟩
    · rw [List.map_map]
      rfl
    · rw [List.map_map]
      exact List.Nodup.map_on
        (fun x hx y hy he => hpStr_inj_on_configs hnames hx hy (by exact he))
        (configs_nodup space hvals)
  · rw [funext hagree]

theorem keys_nodup_amended_witness :
    ((∀ p ∈ exSpace, p.2 ≠ []) ∧ (exSpace.map Prod.fst).Nodup ∧
      (∀ p ∈ exSpace, p.2.Nodup)) ∧
    ((∃ m bc tbl,
      hyperparam_search (ε := Unit) exSpace (fun _ => ())
          (fun c => Except.ok (exScore c)) true =
        Except.ok (m, bc, tbl) ∧
      tbl.map Prod.fst = (configs exSpace).map hpStr ∧
      (tbl.map Prod.fst).Nodup) ∧
    hyperparam_search (ε := Unit) exSpace (fun _ => ())
        (fun c => Except.ok (exScore c)) true =
      hyperparam_search (ε := Unit) exSpace (fun _ => ())
        (fun c => Except.ok (exScore c)) true) :=
  ⟨⟨by decide, by decide, by decide⟩,
    keys_nodup_amended exSpace (fun _ => ()) exScore exScore true (by decide) (by decide)
      (by decide) (fun c => rfl)⟩

/-- Claim C7: when training or evaluating one configuration fails, the search
propagates the failure carrying the offending configuration together with
exactly the entries recorded for the configurations preceding it — their true
scores, uncorrupted — and records no sentinel score for the failed
configuration. -/
theorem train_failure_reported {M ε : Type} (space : Space) (build : Config → M)
    (scoreE : Config → Except ε Score) (maximize : Bool)
    (l₁ : List Config) (c : Config) (l₂ : List Config) (f : Config → Score) (e : ε)
    (hne : ∀ p ∈ space, p.2 ≠ [])
    (hsplit : configs space = l₁ ++ c :: l₂)
    (hok : ∀ d ∈ l₁, scoreE d = Except.ok (f d))
    (herr : scoreE c = Except.error e) :
    hyperparam_search space build scoreE maximize =
      Except.error (SearchError.trainFailure c e (l₁.map (fun d => (hpStr d, f d)))) := by
  have hfind : space.find? (fun p => p.2.isEmpty) = none := by
    rw [List.find?_eq_none]
    intro p hp
    simpa [List.isEmpty_iff] using hne p hp
  have hs := sweep_error scoreE maximize f e l₁ c l₂ none [] hok herr
  rw [List.nil_append] at hs
  unfold hyperparam_search
  rw [hfind, hsplit, hs]

theorem train_failure_reported_witness :
    ((∀ p ∈ failSpace, p.2 ≠ []) ∧
      configs failSpace = [[("a", HValue.vInt 1)]] ++ [("a", HValue.vInt 2)] :: [] ∧
      (∀ d ∈ [[(("a" : String), HValue.vInt 1)]], failScoreE d = Except.ok 7) ∧
      failScoreE [("a", HValue.vInt 2)] = Except.error ()) ∧
    hyperparam_search failSpace (fun _ => ()) failScoreE true =
      Except.error (SearchError.trainFailure [("a", HValue.vInt 2)] ()
        ([[("a", HValue.vInt 1)]].map (fun d => (hpStr d, (7 : Score))))) :=
  ⟨⟨by decide, by decide, by decide, by decide⟩,
    train_failure_reported failSpace (fun _ => ()) failScoreE true
      [[("a", HValue.vInt 1)]] [("a", HValue.vInt 2)] [] (fun _ => 7) ()
      (by decide) (by decide) (by decide) (by decide)⟩

/-- Claim C8: on the empty hyperparameter space the search degenerates to the
single empty configuration: it trains and evaluates exactly one model and
returns a result table with exactly one entry. -/
theorem empty_space_single_run {M ε : Type} (build : Config → M)
    (scoreE : Config → Except ε Score) (maximize : Bool) (s : Score)
    (hs : scoreE [] = Except.ok s) :
    hyperparam_search ([] : Space) build scoreE maximize =
      Except.ok (build [], [], [(hpStr [], s)]) ∧
    (configs ([] : Space)).length = 1 := by
  constructor
  · have h1 : sweep scoreE maximize (configs ([] : Space)) none [] =
        Except.ok (some (([] : Config), s), [(hpStr [], s)]) := by
      show sweep scoreE maximize [[]] none [] = _
      simp [sweep, hs]
    unfold hyperparam_search
    rw [show ([] : Space).find? (fun p => p.2.isEmpty) = none from rfl, h1]
  · rfl

theorem empty_space_single_run_witness :
    ((fun _ => (Except.ok 7 : Except Unit Score)) ([] : Config) = Except.ok 7) ∧
    (hyperparam_search ([] : Space) (fun _ => ())
        (fun _ => (Except.ok 7 : Except Unit Score)) true =
      Except.ok ((), [], [(hpStr [], 7)]) ∧
    (configs ([] : Space)).length = 1) :=
  ⟨rfl, empty_space_single_run (fun _ => ()) (fun _ => Except.ok 7) true 7 rfl⟩

/-- Claim C10 counterexample: the key the search actually records for the
notebook's first configuration joins the `layer_sizes` list value to its name
with no underscore (`…_layer_sizes[500]_…`), not in the claimed
joined-by-underscores form (`…_layer_sizes_[500]_…`); the claimed form appears
nowhere among the result table's keys. -/
theorem key_format_counterexample :
    hpStr notebookConfig =
      "_dropouts_0.200000_layer_sizes[500]_learning_rate_0.001000_n_features_1024_n_tasks_1" ∧
    claimKey notebookConfig =
      "_dropouts_0.200000_layer_sizes_[500]_learning_rate_0.001000_n_features_1024_n_tasks_1" ∧
    hpStr notebookConfig ≠ claimKey notebookConfig ∧
    hpStr notebookConfig ∈ keysOf (hyperparam_search notebookSpace (fun _ => ())
      (fun _ => (Except.ok 0 : Except Unit Score)) true) ∧
    claimKey notebookConfig ∉ keysOf (hyperparam_search notebookSpace (fun _ => ())
      (fun _ => (Except.ok 0 : Except Unit Score)) true) :=
  ⟨by decide, by decide, by decide, by decide, by decide⟩

/-- Claim C10 (amended): every key in the result table is the canonical key of
its configuration: a leading underscore before each hyperparameter name in
ascending alphabetical order; integer and float values are joined to their
name by an underscore, floats carrying exactly six digits after the decimal
point (0.0001 renders as 0.000100, 0.2 as 0.200000); list values are appended
in bracketed comma-separated form directly after their name, with no
separating underscore. -/
theorem key_format_amended {M ε : Type} (space : Space) (build : Config → M)
    (score : Config → Score) (maximize : Bool) (hne : ∀ p ∈ space, p.2 ≠ []) :
    (∃ m bc,
      hyperparam_search (ε := ε) space build (fun c => Except.ok (score c)) maximize =
        Except.ok (m, bc, (configs space).map (fun c => (hpStr c, score c)))) ∧
    hpStr [("dropouts", HValue.vFloat 200000)] = "_dropouts_0.200000" ∧
    hpStr [("learning_rate", HValue.vFloat 100)] = "_learning_rate_0.000100" ∧
    hpStr [("layer_sizes", HValue.vList [1000, 1000])] = "_layer_sizes[1000, 1000]" ∧
    hpStr notebookConfig =
      "_dropouts_0.200000_layer_sizes[500]_learning_rate_0.001000_n_features_1024_n_tasks_1" := by
  obtain ⟨bc, l₁, l₂, hok, _, _, _⟩ := search_ok_master space build score maximize hne
  exact ⟨⟨build bc, bc, hok⟩, by decide, by decide, by decide, by decide⟩

theorem key_format_amended_witness :
    (∀ p ∈ notebookSpace, p.2 ≠ []) ∧
    ((∃ m bc,
      hyperparam_search (ε := Unit) notebookSpace (fun _ => ())
          (fun c => Except.ok ((fun _ => (0 : Score)) c)) true =
        Except.ok (m, bc,
          (configs notebookSpace).map (fun c => (hpStr c, (fun _ => (0 : Score)) c)))) ∧
    hpStr [("dropouts", HValue.vFloat 200000)] = "_dropouts_0.200000" ∧
    hpStr [("learning_rate", HValue.vFloat 100)] = "_learning_rate_0.000100" ∧
    hpStr [("layer_sizes", HValue.vList [1000, 1000])] = "_layer_sizes[1000, 1000]" ∧
    hpStr notebookConfig =
      "_dropouts_0.200000_layer_sizes[500]_learning_rate_0.001000_n_features_1024_n_tasks_1") :=
  ⟨by decide, key_format_amended notebookSpace (fun _ => ()) (fun _ => 0) true (by decide)⟩

end GridSearch
